import Mathlib

/-!
Shallow embedding of the telemetry-buffer core of the otel-mcp repository
(`internal/buffer/buffer.go` and `connector/mcpconnector/connector.go`),
with theorems checking the natural-language specification against it.

Modelling conventions:
* Go `int` is modelled as `Int`; the one place where 64-bit wraparound can
  occur on realistic state (`offset+limit` inside `fixedDeque.Get`) is made
  explicit with `wrap64`.  Go defines signed-integer overflow as two's
  complement wraparound.
* A Go runtime panic is modelled as `Option.none` (the only panic reachable
  in the embedded code is `make([]T, n)` with `n < 0`).
* The third-party deque `github.com/earthboundkid/deque/v2` is not part of
  the repository's sources; it is modelled as a Lean `List` (front = index
  0 = oldest) with the package's comma-ok API as observed at the call sites
  (`item, _ := fd.deque.At(offset + i)`): `At` returns the zero value and
  `false` out of range, and `RemoveFront` removes nothing from an empty
  deque.
* `ptrace.Traces` / `pmetric.Metrics` / `plog.Logs` batches are opaque: the
  buffer is generic in the element type, exactly as `fixedDeque[T]` is.
-/

/-- Two's-complement wraparound of 64-bit signed integer arithmetic:
`wrap64 x` is the value of `x` reduced into `[-2^63, 2^63)`. -/
def wrap64 (x : Int) : Int :=
  (x + 2 ^ 63) % 2 ^ 64 - 2 ^ 63

/-- The spec's `clamp(x, lo, hi)`: `x` forced into the interval `[lo, hi]`. -/
def clamp (x lo hi : Int) : Int :=
  max lo (min x hi)

/-- Modelled from the spec: `deque.Deque[T].At(i) (T, bool)` of the external
package `github.com/earthboundkid/deque/v2` (not in the repository sources).
Index 0 is the front (oldest); out of range it yields the zero value of `T`
(comma-ok API, the `bool` result is discarded by the caller in
`fixedDeque.Get`). -/
def dequeAt {T : Type} [Inhabited T] (l : List T) (i : Int) : T :=
  if 0 ≤ i ∧ i < (l.length : Int) then l.getD i.toNat default else default

/-- Modelled from the spec: `deque.Deque[T].RemoveFront()` of the external
deque package; with the comma-ok API it removes nothing from an empty
deque. -/
def removeFront {T : Type} (l : List T) : List T :=
  l.tail

/-- Modelled from the spec: `deque.Deque[T].PushBack(item)` appends at the
back (newest end). -/
def pushBack {T : Type} (l : List T) (item : T) : List T :=
  l ++ [item]

/-- `fixedDeque[T]` of `internal/buffer/buffer.go`: a deque plus the fixed
`capacity` field.  The `sync.RWMutex` field has no value-level content; each
operation holds it for its whole body, so operations are embedded as atomic
state transformers (see the concurrency theorem). -/
structure FixedDeque (T : Type) where
  deque : List T
  capacity : Int

/-- `newFixedDeque(capacity)`: `deque.Make[T](capacity)` constructs an empty
deque (the argument is only a size hint); no validation of `capacity`. -/
def newFixedDeque (T : Type) (capacity : Int) : FixedDeque T :=
  { deque := [], capacity := capacity }

/-- `fixedDeque.Add`: if `Len() >= capacity`, `RemoveFront()`, then
`PushBack(item)`. -/
def FixedDeque.Add {T : Type} (fd : FixedDeque T) (item : T) : FixedDeque T :=
  let d := if (fd.deque.length : Int) ≥ fd.capacity then removeFront fd.deque else fd.deque
  { deque := pushBack d item, capacity := fd.capacity }

/-- `fixedDeque.Get(limit, offset)`.  `none` models the Go runtime panic of
`make([]T, actualLimit)` when `actualLimit < 0` (allocation-size limits for
huge nonnegative lengths are not modelled; on such inputs the model returns
the sequence the loop would write, whose every slot `result[i]` is
`At(offset+i)` ignoring the ok flag).  The two `int` additions
`offset+limit` and `offset+i` use 64-bit wraparound. -/
def FixedDeque.Get {T : Type} [Inhabited T] (fd : FixedDeque T) (limit offset : Int) :
    Option (List T) :=
  let length : Int := fd.deque.length
  if offset ≥ length then some []
  else
    let actualLimit := if wrap64 (offset + limit) > length then wrap64 (length - offset) else limit
    if actualLimit < 0 then none
    else some ((List.range actualLimit.toNat).map
      (fun i : Nat => dequeAt fd.deque (wrap64 (offset + (i : Int)))))

/-- `fixedDeque.Count`: the deque's length. -/
def FixedDeque.Count {T : Type} (fd : FixedDeque T) : Int :=
  fd.deque.length

/-- `fixedDeque.Capacity`: the stored capacity field. -/
def FixedDeque.Capacity {T : Type} (fd : FixedDeque T) : Int :=
  fd.capacity

/-- A sequence of `Add` calls, first element of the list added first. -/
def addAll {T : Type} (fd : FixedDeque T) (xs : List T) : FixedDeque T :=
  xs.foldl FixedDeque.Add fd

/-- `BufferStats` of `internal/buffer/buffer.go`. -/
structure BufferStats where
  TracesCount : Int
  TracesCapacity : Int
  MetricsCount : Int
  MetricsCapacity : Int
  LogsCount : Int
  LogsCapacity : Int
  deriving DecidableEq

/-- The `buffer` struct of `internal/buffer/buffer.go`: three independent
fixed deques, one per signal kind. -/
structure Buffer (Tr Me Lo : Type) where
  traces : FixedDeque Tr
  metrics : FixedDeque Me
  logs : FixedDeque Lo

/-- `New(tracesCapacity, metricsCapacity, logsCapacity)`. -/
def Buffer.New (Tr Me Lo : Type) (tracesCapacity metricsCapacity logsCapacity : Int) :
    Buffer Tr Me Lo :=
  { traces := newFixedDeque Tr tracesCapacity
    metrics := newFixedDeque Me metricsCapacity
    logs := newFixedDeque Lo logsCapacity }

/-- `buffer.AddTraces`. -/
def Buffer.AddTraces {Tr Me Lo : Type} (b : Buffer Tr Me Lo) (td : Tr) : Buffer Tr Me Lo :=
  { b with traces := b.traces.Add td }

/-- `buffer.AddMetrics`. -/
def Buffer.AddMetrics {Tr Me Lo : Type} (b : Buffer Tr Me Lo) (md : Me) : Buffer Tr Me Lo :=
  { b with metrics := b.metrics.Add md }

/-- `buffer.AddLogs`. -/
def Buffer.AddLogs {Tr Me Lo : Type} (b : Buffer Tr Me Lo) (ld : Lo) : Buffer Tr Me Lo :=
  { b with logs := b.logs.Add ld }

/-- `buffer.GetStats`: count and capacity of each signal kind. -/
def Buffer.GetStats {Tr Me Lo : Type} (b : Buffer Tr Me Lo) : BufferStats :=
  { TracesCount := b.traces.Count
    TracesCapacity := b.traces.Capacity
    MetricsCount := b.metrics.Count
    MetricsCapacity := b.metrics.Capacity
    LogsCount := b.logs.Count
    LogsCapacity := b.logs.Capacity }

/-!
Embedding of `connector/mcpconnector/connector.go`.

`ptrace.Traces` (and the metric/log batch types) are reference types: two Go
variables may alias the same underlying batch, and `CopyTo` produces an
independent deep copy.  This is modelled with an explicit heap: a batch
variable is a reference `Ref` into a `Heap V` mapping references to batch
values `V`; `td.CopyTo(tdClone)` with `tdClone := ptrace.NewTraces()` is an
allocation of a fresh reference holding the current value of `td`, and
mutating a batch is `Heap.write`.  The downstream consumer's
`ConsumeTraces(ctx, td)` is an abstract function from the heap and the
forwarded reference to an optional error (`nil` = `none`) and a resulting
heap.
-/

/-- A reference to a pdata batch (Go reference semantics). -/
abbrev Ref := Nat

/-- Heap of batch values: allocated references are exactly those below
`next`. -/
structure Heap (V : Type) where
  vals : Ref → V
  next : Ref

/-- Read the batch value a reference aliases. -/
def Heap.read {V : Type} (h : Heap V) (r : Ref) : V :=
  h.vals r

/-- Mutate the batch a reference aliases (visible through every alias of
`r`). -/
def Heap.write {V : Type} (h : Heap V) (r : Ref) (v : V) : Heap V :=
  { h with vals := Function.update h.vals r v }

/-- Allocate a fresh batch holding value `v` (models
`NewTraces()` + `CopyTo` when `v` is the copied value). -/
def Heap.alloc {V : Type} (h : Heap V) (v : V) : Ref × Heap V :=
  (h.next, { vals := Function.update h.vals h.next v, next := h.next + 1 })

/-- A downstream consumer in the pipeline: its declared
`Capabilities().MutatesData` and its `Consume*(ctx, batch)` behaviour,
abstracted as a function of the heap and the forwarded reference, returning
the error it gives back (`none` = `nil`) and the heap it leaves. -/
structure Consumer (V : Type) where
  mutatesData : Bool
  consume : Heap V → Ref → Option String × Heap V

/-- The buffered references held by the MCP extension's `TelemetryBuffer`,
one sequence per signal kind (the connector only ever calls `AddTraces` /
`AddMetrics` / `AddLogs` on it). -/
structure ExtBuffer where
  traces : List Ref
  metrics : List Ref
  logs : List Ref
  deriving DecidableEq

/-- `ExtBuffer.AddTraces`. -/
def ExtBuffer.AddTraces (b : ExtBuffer) (td : Ref) : ExtBuffer :=
  { b with traces := b.traces ++ [td] }

/-- `ExtBuffer.AddMetrics`. -/
def ExtBuffer.AddMetrics (b : ExtBuffer) (md : Ref) : ExtBuffer :=
  { b with metrics := b.metrics ++ [md] }

/-- `ExtBuffer.AddLogs`. -/
def ExtBuffer.AddLogs (b : ExtBuffer) (ld : Ref) : ExtBuffer :=
  { b with logs := b.logs ++ [ld] }

/-- An entry of `host.GetExtensions()`: its component type string
(`id.Type().String()`) and the result of the `ext.(TelemetryBuffer)` type
assertion (`some` of the buffer when the assertion succeeds). -/
structure HostExtension where
  typeStr : String
  asBuffer : Option ExtBuffer

/-- `mcpConnector` of `connector/mcpconnector/connector.go`: the three next
consumers, the discovered buffer (`nil` = `none` until `Start` finds the MCP
extension), and the three `MutatesData` capabilities cached at
construction. -/
structure MCPConnector (V : Type) where
  nextTraces : Option (Consumer V)
  nextMetrics : Option (Consumer V)
  nextLogs : Option (Consumer V)
  buffer : Option ExtBuffer
  nextTracesMutates : Bool
  nextMetricsMutates : Bool
  nextLogsMutates : Bool

/-- `newConnector`: stores the next consumers, leaves `buffer` nil, and
caches each wired consumer's `Capabilities().MutatesData` (false when the
consumer is nil). -/
def newConnector {V : Type} (nextTraces nextMetrics nextLogs : Option (Consumer V)) :
    MCPConnector V :=
  { nextTraces := nextTraces
    nextMetrics := nextMetrics
    nextLogs := nextLogs
    buffer := none
    nextTracesMutates := match nextTraces with
      | some c => c.mutatesData
      | none => false
    nextMetricsMutates := match nextMetrics with
      | some c => c.mutatesData
      | none => false
    nextLogsMutates := match nextLogs with
      | some c => c.mutatesData
      | none => false }

/-- The loop body of `mcpConnector.Start`: scan `host.GetExtensions()` for
the first entry whose type string is "mcp" and whose `TelemetryBuffer` type
assertion succeeds (an "mcp"-typed entry that fails the assertion is skipped
and the scan continues). -/
def findMCPBuffer : List HostExtension → Option ExtBuffer
  | [] => none
  | e :: rest =>
    if e.typeStr = "mcp" then
      match e.asBuffer with
      | some b => some b
      | none => findMCPBuffer rest
    else findMCPBuffer rest

/-- `mcpConnector.Start`: one discovery pass over the host's extensions;
sets `buffer` on success, otherwise only logs a warning.  Returns `nil`
either way. -/
def MCPConnector.Start {V : Type} (c : MCPConnector V) (extensions : List HostExtension) :
    MCPConnector V × Option String :=
  (match findMCPBuffer extensions with
   | some b => { c with buffer := some b }
   | none => c,
   none)

/-- The result of one `Consume*` call: the error returned to the caller, the
heap after the call, the connector state after the call, and the reference
forwarded downstream (`none` when no next consumer is wired). -/
structure ConsumeResult (V : Type) where
  err : Option String
  heap : Heap V
  conn : MCPConnector V
  forwarded : Option Ref

/-- The buffering half of `mcpConnector.ConsumeTraces` (everything before
"Pass through to next consumer"): when a buffer reference is held, either
deep-copy the batch (`tdClone := ptrace.NewTraces(); td.CopyTo(tdClone)`)
and store the clone when the cached capability says downstream mutates, or
store the original reference when it does not. -/
def bufferTraces {V : Type} (c : MCPConnector V) (h : Heap V) (td : Ref) :
    MCPConnector V × Heap V :=
  match c.buffer with
  | some buf =>
    if c.nextTracesMutates then
      let p := h.alloc (h.read td)
      ({ c with buffer := some (buf.AddTraces p.1) }, p.2)
    else
      ({ c with buffer := some (buf.AddTraces td) }, h)
  | none => (c, h)

/-- `mcpConnector.ConsumeTraces`: buffer (clone-or-share), then pass the
original `td` through to the next traces consumer, returning its error. -/
def MCPConnector.ConsumeTraces {V : Type} (c : MCPConnector V) (h : Heap V) (td : Ref) :
    ConsumeResult V :=
  let p := bufferTraces c h td
  match c.nextTraces with
  | some next =>
    let q := next.consume p.2 td
    { err := q.1, heap := q.2, conn := p.1, forwarded := some td }
  | none => { err := none, heap := p.2, conn := p.1, forwarded := none }

/-- The buffering half of `mcpConnector.ConsumeMetrics`. -/
def bufferMetrics {V : Type} (c : MCPConnector V) (h : Heap V) (md : Ref) :
    MCPConnector V × Heap V :=
  match c.buffer with
  | some buf =>
    if c.nextMetricsMutates then
      let p := h.alloc (h.read md)
      ({ c with buffer := some (buf.AddMetrics p.1) }, p.2)
    else
      ({ c with buffer := some (buf.AddMetrics md) }, h)
  | none => (c, h)

/-- `mcpConnector.ConsumeMetrics`. -/
def MCPConnector.ConsumeMetrics {V : Type} (c : MCPConnector V) (h : Heap V) (md : Ref) :
    ConsumeResult V :=
  let p := bufferMetrics c h md
  match c.nextMetrics with
  | some next =>
    let q := next.consume p.2 md
    { err := q.1, heap := q.2, conn := p.1, forwarded := some md }
  | none => { err := none, heap := p.2, conn := p.1, forwarded := none }

/-- The buffering half of `mcpConnector.ConsumeLogs`. -/
def bufferLogs {V : Type} (c : MCPConnector V) (h : Heap V) (ld : Ref) :
    MCPConnector V × Heap V :=
  match c.buffer with
  | some buf =>
    if c.nextLogsMutates then
      let p := h.alloc (h.read ld)
      ({ c with buffer := some (buf.AddLogs p.1) }, p.2)
    else
      ({ c with buffer := some (buf.AddLogs ld) }, h)
  | none => (c, h)

/-- `mcpConnector.ConsumeLogs`. -/
def MCPConnector.ConsumeLogs {V : Type} (c : MCPConnector V) (h : Heap V) (ld : Ref) :
    ConsumeResult V :=
  let p := bufferLogs c h ld
  match c.nextLogs with
  | some next =>
    let q := next.consume p.2 ld
    { err := q.1, heap := q.2, conn := p.1, forwarded := some ld }
  | none => { err := none, heap := p.2, conn := p.1, forwarded := none }

/-!
State-passing embedding of the read-only operations.  `fixedDeque.Get` and
`buffer.GetStats` run against a mutable receiver in Go; to make the frame
property ("Get leaves the buffer unchanged") a theorem rather than a
modelling artefact, this second embedding threads the deque state through
every primitive operation (`Len`, `At`) exactly in the order the Go code
performs them, and the frame theorem proves the threaded-out state equal to
the input state and the threaded result equal to the pure embedding.
-/

/-- State-passing `deque.Len()`. -/
def dequeLenS {T : Type} (d : List T) : Int × List T :=
  ((d.length : Int), d)

/-- State-passing `deque.At(i)` with its comma-ok result. -/
def dequeAtS {T : Type} [Inhabited T] (d : List T) (i : Int) : (T × Bool) × List T :=
  ((dequeAt d i, decide (0 ≤ i ∧ i < (d.length : Int))), d)

/-- The `for i := 0; i < actualLimit; i++` loop of `fixedDeque.Get`,
threading the deque state through each `At` call; the `Nat` argument after
the deque is the remaining iteration count, `i` the current index. -/
def getLoopS {T : Type} [Inhabited T] (offset : Int) : Nat → List T → Nat → List T × List T
  | _i, d, 0 => ([], d)
  | i, d, Nat.succ fuel =>
    let p := dequeAtS d (wrap64 (offset + (i : Int)))
    let q := getLoopS offset (i + 1) p.2 fuel
    (p.1.1 :: q.1, q.2)

/-- State-passing `fixedDeque.Get`. -/
def FixedDeque.GetS {T : Type} [Inhabited T] (fd : FixedDeque T) (limit offset : Int) :
    Option (List T) × FixedDeque T :=
  let p := dequeLenS fd.deque
  if offset ≥ p.1 then (some [], { deque := p.2, capacity := fd.capacity })
  else
    let actualLimit := if wrap64 (offset + limit) > p.1 then wrap64 (p.1 - offset) else limit
    if actualLimit < 0 then (none, { deque := p.2, capacity := fd.capacity })
    else
      let q := getLoopS offset 0 p.2 actualLimit.toNat
      (some q.1, { deque := q.2, capacity := fd.capacity })

/-- State-passing `fixedDeque.Count`. -/
def FixedDeque.CountS {T : Type} (fd : FixedDeque T) : Int × FixedDeque T :=
  ((fd.deque.length : Int), fd)

/-- State-passing `fixedDeque.Capacity`. -/
def FixedDeque.CapacityS {T : Type} (fd : FixedDeque T) : Int × FixedDeque T :=
  (fd.capacity, fd)

/-- State-passing `buffer.GetStats`, threading each per-kind deque through
its `Count` and `Capacity` reads in the order of the Go struct literal. -/
def Buffer.GetStatsS {Tr Me Lo : Type} (b : Buffer Tr Me Lo) :
    BufferStats × Buffer Tr Me Lo :=
  let tc := b.traces.CountS
  let tcap := tc.2.CapacityS
  let mc := b.metrics.CountS
  let mcap := mc.2.CapacityS
  let lc := b.logs.CountS
  let lcap := lc.2.CapacityS
  ({ TracesCount := tc.1, TracesCapacity := tcap.1
     MetricsCount := mc.1, MetricsCapacity := mcap.1
     LogsCount := lc.1, LogsCapacity := lcap.1 },
   { traces := tcap.2, metrics := mcap.2, logs := lcap.2 })

/-!
Concurrency model.  Each `fixedDeque` operation holds the per-instance
`sync.RWMutex` for its whole body (writers exclusively, readers shared), so
every `Add` is atomic with respect to every other operation on the same
buffer and a `Get` observes a state between two complete `Add`s, never a
partially-applied one.  A concurrent execution of `T` goroutines is
therefore modelled as an arbitrary interleaving of their per-goroutine
operation sequences into one serial order (the order of lock
acquisition).
-/

/-- `IsInterleaving threads ws`: the serial order `ws` is one possible
interleaving of the per-goroutine sequences `threads`, preserving each
goroutine's own order. -/
inductive IsInterleaving {T : Type} : List (List T) → List T → Prop
  | empty (threads : List (List T)) (h : ∀ l ∈ threads, l = []) :
      IsInterleaving threads []
  | step (threads : List (List T)) (i : Fin threads.length) (x : T) (tl : List T)
      (ws : List T) (hget : threads.get i = x :: tl)
      (hrest : IsInterleaving (threads.set i tl) ws) :
      IsInterleaving threads (x :: ws)

/- Sanity examples mirroring the repository's own unit tests. -/

example : (addAll (newFixedDeque Nat 3) [0, 1, 2, 3, 4]).Count = 3 := by decide

example : (addAll (newFixedDeque Nat 10) [0, 1, 2, 3, 4]).Get 2 1 = some [1, 2] := by decide

example : (newFixedDeque Nat 5).Get 10 0 = some [] := by decide

/- Core lemmas about the embedded buffer. -/

theorem wrap64_eq_self {x : Int} (h1 : -(2 ^ 63) ≤ x) (h2 : x < 2 ^ 63) : wrap64 x = x := by
  unfold wrap64
  rw [Int.emod_eq_of_lt (by omega) (by omega)]
  omega

theorem FixedDeque.Add_capacity {T : Type} (fd : FixedDeque T) (x : T) :
    (fd.Add x).capacity = fd.capacity := rfl

theorem addAll_capacity {T : Type} (xs : List T) :
    ∀ fd : FixedDeque T, (addAll fd xs).capacity = fd.capacity := by
  induction xs with
  | nil => intro fd; rfl
  | cons x xs ih =>
    intro fd
    have : addAll fd (x :: xs) = addAll (fd.Add x) xs := rfl
    rw [this, ih]
    rfl

theorem FixedDeque.Add_deque_full {T : Type} (fd : FixedDeque T) (x : T)
    (h : (fd.deque.length : Int) ≥ fd.capacity) :
    (fd.Add x).deque = removeFront fd.deque ++ [x] := by
  show pushBack (if (fd.deque.length : Int) ≥ fd.capacity then removeFront fd.deque
    else fd.deque) x = removeFront fd.deque ++ [x]
  rw [if_pos h]
  rfl

theorem FixedDeque.Add_deque_spare {T : Type} (fd : FixedDeque T) (x : T)
    (h : ¬ ((fd.deque.length : Int) ≥ fd.capacity)) :
    (fd.Add x).deque = fd.deque ++ [x] := by
  show pushBack (if (fd.deque.length : Int) ≥ fd.capacity then removeFront fd.deque
    else fd.deque) x = fd.deque ++ [x]
  rw [if_neg h]
  rfl

theorem addAll_deque {T : Type} (cap : Int) (hc : 1 ≤ cap) (xs : List T) :
    ∀ fd : FixedDeque T, fd.capacity = cap → fd.deque.length ≤ cap.toNat →
      (addAll fd xs).deque = (fd.deque ++ xs).drop (fd.deque.length + xs.length - cap.toNat) := by
  induction xs with
  | nil =>
    intro fd hcap hlen
    simp only [addAll, List.foldl_nil, List.append_nil, List.length_nil, Nat.add_zero]
    have h0 : fd.deque.length - cap.toNat = 0 := by omega
    rw [h0, List.drop_zero]
  | cons x xs ih =>
    intro fd hcap hlen
    have hstep : addAll fd (x :: xs) = addAll (fd.Add x) xs := rfl
    rw [hstep]
    by_cases hfull : (fd.deque.length : Int) ≥ fd.capacity
    · have hlen_eq : fd.deque.length = cap.toNat := by
        rw [hcap] at hfull; omega
      have hpos : 1 ≤ fd.deque.length := by omega
      obtain ⟨hd, tl, hdq⟩ : ∃ hd tl, fd.deque = hd :: tl := by
        cases hdeq : fd.deque with
        | nil => rw [hdeq] at hpos; simp at hpos
        | cons a l => exact ⟨a, l, rfl⟩
      have hadd : (fd.Add x).deque = tl ++ [x] := by
        rw [FixedDeque.Add_deque_full fd x hfull, hdq]
        rfl
      have len_tl : tl.length = cap.toNat - 1 := by
        rw [hdq] at hlen_eq
        simp only [List.length_cons] at hlen_eq
        omega
      have := ih (fd.Add x) (by rw [FixedDeque.Add_capacity, hcap])
        (by rw [hadd]; simp only [List.length_append, List.length_cons, List.length_nil]; omega)
      rw [this, hadd, hdq]
      have e1 : (tl ++ [x]).length + xs.length - cap.toNat = xs.length := by
        simp only [List.length_append, List.length_cons, List.length_nil]
        omega
      have e2 : (hd :: tl).length + (x :: xs).length - cap.toNat = xs.length + 1 := by
        simp only [List.length_cons]
        omega
      rw [e1, e2]
      have e3 : (tl ++ [x]) ++ xs = tl ++ x :: xs := by simp
      have e4 : (hd :: tl) ++ x :: xs = hd :: (tl ++ x :: xs) := by simp
      rw [e3, e4, List.drop_succ_cons]
    · have hlt : fd.deque.length < cap.toNat := by
        rw [hcap] at hfull; omega
      have hadd : (fd.Add x).deque = fd.deque ++ [x] :=
        FixedDeque.Add_deque_spare fd x hfull
      have := ih (fd.Add x) (by rw [FixedDeque.Add_capacity, hcap])
        (by rw [hadd]; simp only [List.length_append, List.length_cons, List.length_nil]; omega)
      rw [this, hadd]
      have e1 : (fd.deque ++ [x]) ++ xs = fd.deque ++ x :: xs := by simp
      have e2 : (fd.deque ++ [x]).length + xs.length - cap.toNat
          = fd.deque.length + (x :: xs).length - cap.toNat := by
        simp only [List.length_append, List.length_cons, List.length_nil]
        omega
      rw [e1, e2]

theorem addAll_new_deque {T : Type} (cap : Int) (hc : 1 ≤ cap) (xs : List T) :
    (addAll (newFixedDeque T cap) xs).deque = xs.drop (xs.length - cap.toNat) := by
  have := addAll_deque cap hc xs (newFixedDeque T cap) rfl (by simp [newFixedDeque])
  simpa [newFixedDeque] using this

theorem addAll_new_count {T : Type} (cap : Int) (hc : 1 ≤ cap) (xs : List T) :
    (addAll (newFixedDeque T cap) xs).Count = min (xs.length : Int) cap := by
  unfold FixedDeque.Count
  rw [addAll_new_deque cap hc xs]
  rw [List.length_drop]
  omega

theorem map_range_getD {T : Type} [Inhabited T] (l : List T) (o n : Nat)
    (h : o + n ≤ l.length) :
    (List.range n).map (fun i : Nat => l.getD (o + i) default) = (l.drop o).take n := by
  apply List.ext_getElem
  · simp only [List.length_map, List.length_range, List.length_take, List.length_drop]
    omega
  · intro i h1 h2
    simp only [List.length_map, List.length_range] at h1
    simp only [List.getElem_map, List.getElem_range, List.getElem_take, List.getElem_drop]
    exact List.getD_eq_getElem l default (by omega)

theorem get_spec {T : Type} [Inhabited T] (fd : FixedDeque T) (limit offset : Int)
    (hl : 0 ≤ limit) (ho : 0 ≤ offset)
    (hlen : (fd.deque.length : Int) < 2 ^ 63) (hof : offset + limit < 2 ^ 63) :
    fd.Get limit offset =
      some ((fd.deque.drop offset.toNat).take (clamp (fd.Count - offset) 0 limit).toNat) := by
  unfold FixedDeque.Get clamp FixedDeque.Count
  by_cases hoff : offset ≥ (fd.deque.length : Int)
  · have htn : (max 0 (min ((fd.deque.length : Int) - offset) limit)).toNat = 0 := by omega
    simp only [hoff, if_true, htn, List.take_zero]
  · have hoff2 : offset < (fd.deque.length : Int) := by omega
    have hw1 : wrap64 (offset + limit) = offset + limit :=
      wrap64_eq_self (by omega) (by omega)
    have hptwise : ∀ m : Nat, (m : Int) + offset < 2 ^ 63 →
        ((List.range m).map (fun i : Nat => dequeAt fd.deque (wrap64 (offset + (i : Int)))))
          = (List.range m).map (fun i : Nat => fd.deque.getD (offset.toNat + i) default) := by
      intro m hm
      apply List.map_congr_left
      intro a ha
      have ham : a < m := List.mem_range.mp ha
      have hw2 : wrap64 (offset + (a : Int)) = offset + a :=
        wrap64_eq_self (by omega) (by omega)
      rw [hw2]
      unfold dequeAt
      by_cases hin : 0 ≤ offset + (a : Int) ∧ offset + (a : Int) < (fd.deque.length : Int)
      · rw [if_pos hin]
        have harg : (offset + (a : Int)).toNat = offset.toNat + a := by omega
        rw [harg]
      · rw [if_neg hin]
        rw [List.getD_eq_getElem?_getD, List.getElem?_eq_none (by omega)]
        rfl
    by_cases hgt : offset + limit > (fd.deque.length : Int)
    · have hw3 : wrap64 ((fd.deque.length : Int) - offset) = (fd.deque.length : Int) - offset :=
        wrap64_eq_self (by omega) (by omega)
      simp only [hoff, if_false, hw1, hgt, if_true, hw3]
      have hneg : ¬ (((fd.deque.length : Int) - offset) < 0) := by omega
      rw [if_neg hneg]
      rw [hptwise (((fd.deque.length : Int) - offset)).toNat (by omega)]
      rw [map_range_getD fd.deque offset.toNat
        ((((fd.deque.length : Int) - offset)).toNat) (by omega)]
      have htn : (max 0 (min ((fd.deque.length : Int) - offset) limit)).toNat
          = (((fd.deque.length : Int) - offset)).toNat := by omega
      rw [htn]
    · simp only [hoff, if_false, hw1, hgt, if_true]
      have hneg : ¬ (limit < 0) := by omega
      rw [if_neg hneg]
      rw [hptwise limit.toNat (by omega)]
      rw [map_range_getD fd.deque offset.toNat limit.toNat (by omega)]
      have htn : (max 0 (min ((fd.deque.length : Int) - offset) limit)).toNat = limit.toNat := by
        omega
      rw [htn]

theorem getLoopS_spec {T : Type} [Inhabited T] (offset : Int) :
    ∀ (fuel i : Nat) (d : List T),
      getLoopS offset i d fuel
        = ((List.range fuel).map
            (fun k : Nat => dequeAt d (wrap64 (offset + ((i + k : Nat) : Int)))), d) := by
  intro fuel
  induction fuel with
  | zero => intro i d; simp [getLoopS]
  | succ fuel ih =>
    intro i d
    show (dequeAt d (wrap64 (offset + (i : Int)))
        :: (getLoopS offset (i + 1) d fuel).1, (getLoopS offset (i + 1) d fuel).2)
      = _
    rw [ih (i + 1) d]
    rw [List.range_succ_eq_map, List.map_cons, List.map_map]
    refine congrArg (fun l => (_ :: l, d)) ?_
    · apply List.map_congr_left
      intro a _
      show dequeAt d (wrap64 (offset + ((i + 1 + a : Nat) : Int)))
        = dequeAt d (wrap64 (offset + ((i + (a + 1) : Nat) : Int)))
      have harith : i + 1 + a = i + (a + 1) := by omega
      rw [harith]

theorem getS_eq {T : Type} [Inhabited T] (fd : FixedDeque T) (limit offset : Int) :
    fd.GetS limit offset = (fd.Get limit offset, fd) := by
  unfold FixedDeque.GetS FixedDeque.Get dequeLenS
  by_cases hoff : offset ≥ (fd.deque.length : Int)
  · simp only [hoff, if_true]
  · simp only [hoff, if_false]
    by_cases hneg : (if wrap64 (offset + limit) > (fd.deque.length : Int)
        then wrap64 ((fd.deque.length : Int) - offset) else limit) < 0
    · simp only [hneg, if_true]
    · simp only [hneg, if_false]
      rw [getLoopS_spec]
      refine congrArg (fun l => (some l, _)) ?_
      apply List.map_congr_left
      intro a _
      show dequeAt fd.deque (wrap64 (offset + ((0 + a : Nat) : Int)))
        = dequeAt fd.deque (wrap64 (offset + (a : Int)))
      have harith : 0 + a = a := by omega
      rw [harith]

theorem getStatsS_eq {Tr Me Lo : Type} (b : Buffer Tr Me Lo) :
    b.GetStatsS = (b.GetStats, b) := rfl

theorem sum_set_nat (l : List Nat) :
    ∀ (i : Nat) (v : Nat), i < l.length → (l.set i v).sum + l[i]! = l.sum + v := by
  induction l with
  | nil => intro i v h; simp at h
  | cons a l ih =>
    intro i v h
    cases i with
    | zero => simp [List.set]; omega
    | succ i =>
      have hi : i < l.length := by simpa using h
      have := ih i v hi
      simp only [List.set, List.sum_cons]
      have hbang : (a :: l)[i + 1]! = l[i]! := by
        simp [List.getElem!_cons_succ]
      rw [hbang]
      omega

theorem isInterleaving_length {T : Type} {threads : List (List T)} {ws : List T}
    (h : IsInterleaving threads ws) :
    ws.length = (threads.map List.length).sum := by
  induction h with
  | empty threads h =>
    simp only [List.length_nil]
    symm
    apply List.sum_eq_zero
    intro x hx
    obtain ⟨l, hl, rfl⟩ := List.mem_map.mp hx
    rw [h l hl]
    rfl
  | step threads i x tl ws hget _ ih =>
    simp only [List.length_cons, ih]
    have hmap : (threads.set i tl).map List.length
        = (threads.map List.length).set i tl.length := by
      rw [List.map_set]
    rw [hmap]
    have hlen : (i : Nat) < (threads.map List.length).length := by
      simp only [List.length_map]
      exact i.isLt
    have hsum := sum_set_nat (threads.map List.length) i tl.length hlen
    have hbang : (threads.map List.length)[(i : Nat)]! = (x :: tl).length := by
      rw [getElem!_pos (threads.map List.length) (i : Nat) hlen]
      rw [List.getElem_map]
      have hgete : threads[(i : Nat)] = x :: tl := by
        rw [← List.get_eq_getElem]
        exact hget
      rw [hgete]
    rw [hbang] at hsum
    simp only [List.length_cons] at hsum
    omega

/- Heap lemmas (Go reference semantics of pdata batches). -/

theorem Heap.read_write_same {V : Type} (h : Heap V) (r : Ref) (v : V) :
    (h.write r v).read r = v := by
  simp [Heap.write, Heap.read, Function.update_same]

theorem Heap.read_write_other {V : Type} (h : Heap V) (r s : Ref) (v : V) (hne : s ≠ r) :
    (h.write r v).read s = h.read s := by
  simp [Heap.write, Heap.read, Function.update_noteq hne]

theorem Heap.read_alloc_fresh {V : Type} (h : Heap V) (v : V) :
    (h.alloc v).2.read (h.alloc v).1 = v := by
  simp [Heap.alloc, Heap.read, Function.update_same]

theorem Heap.read_alloc_old {V : Type} (h : Heap V) (v : V) (r : Ref) (hr : r < h.next) :
    (h.alloc v).2.read r = h.read r := by
  have hne : r ≠ h.next := Nat.ne_of_lt hr
  simp [Heap.alloc, Heap.read, Function.update_noteq hne]

/-- C1: for every Consume call on a wired signal kind with a store reference
held, the connector's buffering follows the `MutationCapability` cached at
construction for that kind's downstream consumer: when the cached capability
is `true` the buffered item is a fresh reference (`h.next`), distinct from
the forwarded input reference, holding a deep copy of the input batch's
value, so that any later write through the forwarded reference leaves the
value behind the buffered reference unchanged; when it is `false` the
buffered item is the input reference itself (buffered and forwarded batch
alias) and the heap is untouched.  The first conjunct of each kind ties the
buffering outcome to the full `Consume*` call. -/
theorem consume_clone_policy {V : Type} (c : MCPConnector V) (h : Heap V) (buf : ExtBuffer)
    (hbuf : c.buffer = some buf) (td md ld : Ref)
    (htd : td < h.next) (hmd : md < h.next) (hld : ld < h.next) :
    ((c.ConsumeTraces h td).conn = (bufferTraces c h td).1
      ∧ (c.nextTracesMutates = true →
          (bufferTraces c h td).1.buffer = some (buf.AddTraces h.next)
          ∧ h.next ≠ td
          ∧ (bufferTraces c h td).2.read h.next = h.read td
          ∧ ∀ (hp : Heap V) (v : V), (hp.write td v).read h.next = hp.read h.next)
      ∧ (c.nextTracesMutates = false →
          (bufferTraces c h td).1.buffer = some (buf.AddTraces td)
          ∧ (bufferTraces c h td).2 = h))
    ∧ ((c.ConsumeMetrics h md).conn = (bufferMetrics c h md).1
      ∧ (c.nextMetricsMutates = true →
          (bufferMetrics c h md).1.buffer = some (buf.AddMetrics h.next)
          ∧ h.next ≠ md
          ∧ (bufferMetrics c h md).2.read h.next = h.read md
          ∧ ∀ (hp : Heap V) (v : V), (hp.write md v).read h.next = hp.read h.next)
      ∧ (c.nextMetricsMutates = false →
          (bufferMetrics c h md).1.buffer = some (buf.AddMetrics md)
          ∧ (bufferMetrics c h md).2 = h))
    ∧ ((c.ConsumeLogs h ld).conn = (bufferLogs c h ld).1
      ∧ (c.nextLogsMutates = true →
          (bufferLogs c h ld).1.buffer = some (buf.AddLogs h.next)
          ∧ h.next ≠ ld
          ∧ (bufferLogs c h ld).2.read h.next = h.read ld
          ∧ ∀ (hp : Heap V) (v : V), (hp.write ld v).read h.next = hp.read h.next)
      ∧ (c.nextLogsMutates = false →
          (bufferLogs c h ld).1.buffer = some (buf.AddLogs ld)
          ∧ (bufferLogs c h ld).2 = h)) := by
  refine ⟨⟨?_, ?_, ?_⟩, ⟨?_, ?_, ?_⟩, ⟨?_, ?_, ?_⟩⟩
  · cases hnt : c.nextTraces <;> simp [MCPConnector.ConsumeTraces, hnt]
  · intro hm
    have hne : h.next ≠ td := Ne.symm (Nat.ne_of_lt htd)
    refine ⟨?_, hne, ?_, ?_⟩
    · simp [bufferTraces, hbuf, hm, Heap.alloc]
    · simp only [bufferTraces, hbuf, hm, if_true]
      exact Heap.read_alloc_fresh h (h.read td)
    · intro hp v
      exact Heap.read_write_other hp td h.next v hne
  · intro hm
    simp [bufferTraces, hbuf, hm]
  · cases hnm : c.nextMetrics <;> simp [MCPConnector.ConsumeMetrics, hnm]
  · intro hm
    have hne : h.next ≠ md := Ne.symm (Nat.ne_of_lt hmd)
    refine ⟨?_, hne, ?_, ?_⟩
    · simp [bufferMetrics, hbuf, hm, Heap.alloc]
    · simp only [bufferMetrics, hbuf, hm, if_true]
      exact Heap.read_alloc_fresh h (h.read md)
    · intro hp v
      exact Heap.read_write_other hp md h.next v hne
  · intro hm
    simp [bufferMetrics, hbuf, hm]
  · cases hnl : c.nextLogs <;> simp [MCPConnector.ConsumeLogs, hnl]
  · intro hm
    have hne : h.next ≠ ld := Ne.symm (Nat.ne_of_lt hld)
    refine ⟨?_, hne, ?_, ?_⟩
    · simp [bufferLogs, hbuf, hm, Heap.alloc]
    · simp only [bufferLogs, hbuf, hm, if_true]
      exact Heap.read_alloc_fresh h (h.read ld)
    · intro hp v
      exact Heap.read_write_other hp ld h.next v hne
  · intro hm
    simp [bufferLogs, hbuf, hm]

/-- Witness for C1: a concrete connector whose traces consumer declares
`MutatesData = true`, a one-batch heap; the buffered reference is the fresh
reference 1 ≠ 0 and holds the input's value 5. -/
theorem consume_clone_policy_witness :
    (0 : Ref) < 1
    ∧ (bufferTraces
        ({ newConnector (some ⟨true, fun hp _ => (none, hp)⟩) none none with
            buffer := some ⟨[], [], []⟩ } : MCPConnector Nat)
        ⟨fun _ => 5, 1⟩ 0).1.buffer = some (ExtBuffer.AddTraces ⟨[], [], []⟩ 1)
    ∧ (bufferTraces
        ({ newConnector (some ⟨true, fun hp _ => (none, hp)⟩) none none with
            buffer := some ⟨[], [], []⟩ } : MCPConnector Nat)
        ⟨fun _ => 5, 1⟩ 0).2.read 1 = 5 := by
  have h := consume_clone_policy
    ({ newConnector (some ⟨true, fun hp _ => (none, hp)⟩) none none with
        buffer := some ⟨[], [], []⟩ } : MCPConnector Nat)
    ⟨fun _ => 5, 1⟩ ⟨[], [], []⟩ rfl 0 0 0 (by decide) (by decide) (by decide)
  have ht := h.1.2.1 rfl
  exact ⟨by decide, ht.1, ht.2.2.1⟩

/-- C2: every `Consume*` call forwards the original, unmodified input
reference to the downstream consumer and returns that consumer's result
(error and heap) unchanged; with no downstream consumer it returns `nil`.
In both cases the connector state after the call is exactly the buffering
outcome (buffering happened before forwarding and is unaffected by the
downstream result), and buffering leaves the forwarded batch's value
untouched. -/
theorem consume_passthrough {V : Type} (c : MCPConnector V) (h : Heap V) (td md ld : Ref)
    (htd : td < h.next) (hmd : md < h.next) (hld : ld < h.next) :
    ((∀ next : Consumer V, c.nextTraces = some next →
        c.ConsumeTraces h td
          = { err := (next.consume (bufferTraces c h td).2 td).1
              heap := (next.consume (bufferTraces c h td).2 td).2
              conn := (bufferTraces c h td).1
              forwarded := some td })
      ∧ (c.nextTraces = none →
        c.ConsumeTraces h td
          = { err := none, heap := (bufferTraces c h td).2
              conn := (bufferTraces c h td).1, forwarded := none })
      ∧ (bufferTraces c h td).2.read td = h.read td)
    ∧ ((∀ next : Consumer V, c.nextMetrics = some next →
        c.ConsumeMetrics h md
          = { err := (next.consume (bufferMetrics c h md).2 md).1
              heap := (next.consume (bufferMetrics c h md).2 md).2
              conn := (bufferMetrics c h md).1
              forwarded := some md })
      ∧ (c.nextMetrics = none →
        c.ConsumeMetrics h md
          = { err := none, heap := (bufferMetrics c h md).2
              conn := (bufferMetrics c h md).1, forwarded := none })
      ∧ (bufferMetrics c h md).2.read md = h.read md)
    ∧ ((∀ next : Consumer V, c.nextLogs = some next →
        c.ConsumeLogs h ld
          = { err := (next.consume (bufferLogs c h ld).2 ld).1
              heap := (next.consume (bufferLogs c h ld).2 ld).2
              conn := (bufferLogs c h ld).1
              forwarded := some ld })
      ∧ (c.nextLogs = none →
        c.ConsumeLogs h ld
          = { err := none, heap := (bufferLogs c h ld).2
              conn := (bufferLogs c h ld).1, forwarded := none })
      ∧ (bufferLogs c h ld).2.read ld = h.read ld) := by
  refine ⟨⟨?_, ?_, ?_⟩, ⟨?_, ?_, ?_⟩, ⟨?_, ?_, ?_⟩⟩
  · intro next hnt
    simp [MCPConnector.ConsumeTraces, hnt]
  · intro hnt
    simp [MCPConnector.ConsumeTraces, hnt]
  · cases hb : c.buffer with
    | none => simp [bufferTraces, hb]
    | some buf =>
      by_cases hm : c.nextTracesMutates
      · simp only [bufferTraces, hb, hm, if_true]
        exact Heap.read_alloc_old h (h.read td) td htd
      · simp [bufferTraces, hb, hm]
  · intro next hnm
    simp [MCPConnector.ConsumeMetrics, hnm]
  · intro hnm
    simp [MCPConnector.ConsumeMetrics, hnm]
  · cases hb : c.buffer with
    | none => simp [bufferMetrics, hb]
    | some buf =>
      by_cases hm : c.nextMetricsMutates
      · simp only [bufferMetrics, hb, hm, if_true]
        exact Heap.read_alloc_old h (h.read md) md hmd
      · simp [bufferMetrics, hb, hm]
  · intro next hnl
    simp [MCPConnector.ConsumeLogs, hnl]
  · intro hnl
    simp [MCPConnector.ConsumeLogs, hnl]
  · cases hb : c.buffer with
    | none => simp [bufferLogs, hb]
    | some buf =>
      by_cases hm : c.nextLogsMutates
      · simp only [bufferLogs, hb, hm, if_true]
        exact Heap.read_alloc_old h (h.read ld) ld hld
      · simp [bufferLogs, hb, hm]

/-- Witness for C2: a concrete connector whose downstream traces consumer
fails with an error; the error comes back to the caller unchanged and the
forwarded reference is the original input reference 0. -/
theorem consume_passthrough_witness :
    ((({ newConnector (some ⟨false, fun hp _ => (some ("boom"), hp)⟩) none none with
          buffer := some ⟨[], [], []⟩ } : MCPConnector Nat).ConsumeTraces
        ⟨fun _ => 9, 1⟩ 0).err = some ("boom"))
    ∧ ((({ newConnector (some ⟨false, fun hp _ => (some ("boom"), hp)⟩) none none with
          buffer := some ⟨[], [], []⟩ } : MCPConnector Nat).ConsumeTraces
        ⟨fun _ => 9, 1⟩ 0).forwarded = some 0) := by
  have h := consume_passthrough
    ({ newConnector (some ⟨false, fun hp _ => (some ("boom"), hp)⟩) none none with
        buffer := some ⟨[], [], []⟩ } : MCPConnector Nat)
    ⟨fun _ => 9, 1⟩ 0 0 0 (by decide) (by decide) (by decide)
  rw [h.1.1 ⟨false, fun hp _ => (some ("boom"), hp)⟩ rfl]
  exact ⟨rfl, rfl⟩

theorem findMCPBuffer_none (exts : List HostExtension)
    (h : ∀ e ∈ exts, e.typeStr ≠ "mcp" ∨ e.asBuffer = none) :
    findMCPBuffer exts = none := by
  induction exts with
  | nil => rfl
  | cons e rest ih =>
    have he := h e (List.mem_cons_self e rest)
    have hrest : ∀ x ∈ rest, x.typeStr ≠ "mcp" ∨ x.asBuffer = none :=
      fun x hx => h x (List.mem_cons_of_mem e hx)
    unfold findMCPBuffer
    by_cases ht : e.typeStr = "mcp"
    · rcases he with he | he
      · exact absurd ht he
      · rw [if_pos ht, he]
        exact ih hrest
    · rw [if_neg ht]
      exact ih hrest

/-- C6: starting the connector against a host whose extension registry has
no entry of type "mcp" satisfying the `TelemetryBuffer` assertion returns no
error (degraded mode), leaves the connector exactly as constructed (buffer
still nil — discovery happens only in `Start`, and `Consume` leaves the
connector state unchanged, so it is never retried); every subsequent
`ConsumeTraces` still forwards the batch to the downstream consumer and
returns its result, with no buffering. -/
theorem start_degraded {V : Type} (nt nm nl : Option (Consumer V)) (exts : List HostExtension)
    (hnone : ∀ e ∈ exts, e.typeStr ≠ "mcp" ∨ e.asBuffer = none)
    (h : Heap V) (td : Ref) :
    ((newConnector nt nm nl).Start exts).2 = none
    ∧ ((newConnector nt nm nl).Start exts).1 = newConnector nt nm nl
    ∧ ((newConnector nt nm nl).Start exts).1.buffer = none
    ∧ (∀ next : Consumer V, nt = some next →
        (((newConnector nt nm nl).Start exts).1.ConsumeTraces h td)
          = { err := (next.consume h td).1, heap := (next.consume h td).2
              conn := ((newConnector nt nm nl).Start exts).1, forwarded := some td })
    ∧ (nt = none →
        (((newConnector nt nm nl).Start exts).1.ConsumeTraces h td)
          = { err := none, heap := h, conn := ((newConnector nt nm nl).Start exts).1
              forwarded := none }) := by
  have hfind := findMCPBuffer_none exts hnone
  have hstart : (newConnector nt nm nl).Start exts = (newConnector nt nm nl, none) := by
    simp [MCPConnector.Start, hfind]
  refine ⟨by rw [hstart], by rw [hstart], by rw [hstart]; rfl, ?_, ?_⟩
  · intro next hnt
    rw [hstart]
    simp [MCPConnector.ConsumeTraces, bufferTraces, newConnector, hnt]
  · intro hnt
    rw [hstart]
    simp [MCPConnector.ConsumeTraces, bufferTraces, newConnector, hnt]

/-- Witness for C6: a registry holding only a non-"mcp" extension; `Start`
returns no error and a subsequent `ConsumeTraces` forwards reference 0 to
the downstream consumer with no error. -/
theorem start_degraded_witness :
    ((newConnector (some (⟨false, fun hp _ => (none, hp)⟩ : Consumer Nat)) none none).Start
        [⟨("zpages"), none⟩]).2 = none
    ∧ (((newConnector (some (⟨false, fun hp _ => (none, hp)⟩ : Consumer Nat)) none none).Start
        [⟨("zpages"), none⟩]).1.ConsumeTraces ⟨fun _ => 3, 1⟩ 0).err = none
    ∧ (((newConnector (some (⟨false, fun hp _ => (none, hp)⟩ : Consumer Nat)) none none).Start
        [⟨("zpages"), none⟩]).1.ConsumeTraces ⟨fun _ => 3, 1⟩ 0).forwarded = some 0 := by
  have h := start_degraded (some (⟨false, fun hp _ => (none, hp)⟩ : Consumer Nat)) none none
    [⟨("zpages"), none⟩] (by decide) ⟨fun _ => 3, 1⟩ 0
  refine ⟨h.1, ?_, ?_⟩
  · rw [h.2.2.2.1 ⟨false, fun hp _ => (none, hp)⟩ rfl]
  · rw [h.2.2.2.1 ⟨false, fun hp _ => (none, hp)⟩ rfl]

/-- C3: for every capacity `C ≥ 1` and every sequence of `N ≥ C` adds into
an initially empty buffer, the buffer holds exactly the `C` most recently
inserted items in insertion order (the input sequence with all but the last
`C` items dropped), and `Get(limit, 0)` with `C ≤ limit` (a 64-bit int)
returns exactly those items, oldest to newest. -/
theorem buffer_keeps_newest {T : Type} [Inhabited T] (c : Int) (hc : 1 ≤ c)
    (xs : List T) (hN : c ≤ (xs.length : Int)) (limit : Int) (hlimit : c ≤ limit)
    (hrep : limit < 2 ^ 63) :
    (addAll (newFixedDeque T c) xs).deque = xs.drop (xs.length - c.toNat)
    ∧ (addAll (newFixedDeque T c) xs).Get limit 0 = some (xs.drop (xs.length - c.toNat)) := by
  have hdq := addAll_new_deque c hc xs
  refine ⟨hdq, ?_⟩
  have hcount := addAll_new_count c hc xs
  have hlen : ((addAll (newFixedDeque T c) xs).deque.length : Int) < 2 ^ 63 := by
    rw [hdq, List.length_drop]
    omega
  have hspec := get_spec (addAll (newFixedDeque T c) xs) limit 0 (by omega) (by omega) hlen
    (by omega)
  rw [hspec]
  have hclamp : clamp ((addAll (newFixedDeque T c) xs).Count - 0) 0 limit = c := by
    rw [hcount]
    unfold clamp
    omega
  rw [hclamp, hdq]
  have hlen2 : (xs.drop (xs.length - c.toNat)).length = c.toNat := by
    rw [List.length_drop]
    omega
  rw [show ((0 : Int).toNat) = 0 from rfl, List.drop_zero,
    List.take_of_length_le (le_of_eq hlen2)]

/-- Witness for C3 at the spec's concrete case: capacity 3, markers
0,1,2,3,4 inserted in order, `Get(10, 0)` returns exactly `[2, 3, 4]`. -/
theorem buffer_keeps_newest_witness :
    (addAll (newFixedDeque Nat 3) [0, 1, 2, 3, 4]).Get 10 0 = some [2, 3, 4] := by
  have h := buffer_keeps_newest 3 (by norm_num) [0, 1, 2, 3, 4] (by norm_num) 10 (by norm_num)
    (by norm_num)
  rw [h.2]
  rfl

theorem get_overflow_length {T : Type} [Inhabited T] (fd : FixedDeque T) (limit offset : Int)
    (hl : 0 ≤ limit) (ho : 0 ≤ offset) (hoff : offset < (fd.deque.length : Int))
    (hov : 2 ^ 63 ≤ offset + limit) (hov2 : offset + limit < 2 ^ 64) :
    (fd.Get limit offset).map (fun xs => (xs.length : Int)) = some limit := by
  have hw : wrap64 (offset + limit) = offset + limit - 2 ^ 64 := by
    unfold wrap64
    omega
  unfold FixedDeque.Get
  have h1 : ¬ (offset ≥ (fd.deque.length : Int)) := by omega
  have h2 : ¬ (wrap64 (offset + limit) > (fd.deque.length : Int)) := by
    rw [hw]
    have : (0 : Int) ≤ (fd.deque.length : Int) := Int.ofNat_nonneg _
    omega
  have h3 : ¬ (limit < 0) := by omega
  simp only [h1, if_false, h2, h3, Option.map_some']
  rw [List.length_map, List.length_range, Int.toNat_of_nonneg hl]

/-- C4 counterexample: on a buffer of capacity 2 holding items 10 and 11,
`Get(2^63 - 1, 1)` does not return a sequence of length
`clamp(Count() - 1, 0, 2^63 - 1) = 1`: the bounds check `offset+limit`
wraps around 64-bit int, `actualLimit` stays `2^63 - 1`, and the call does
not produce the clamped one-element window (the real program dies in
`make([]T, actualLimit)`). -/
theorem get_length_clamp_counterexample :
    ¬ (((addAll (newFixedDeque Nat 2) [10, 11]).Get (2 ^ 63 - 1) 1).map
        (fun xs => (xs.length : Int))
      = some (clamp ((addAll (newFixedDeque Nat 2) [10, 11]).Count - 1) 0 (2 ^ 63 - 1))) := by
  have hoff : (1 : Int) < ((addAll (newFixedDeque Nat 2) [10, 11]).deque.length : Int) := by
    decide
  have h := get_overflow_length (addAll (newFixedDeque Nat 2) [10, 11]) (2 ^ 63 - 1) 1
    (by norm_num) (by norm_num) hoff (by norm_num) (by norm_num)
  intro heq
  rw [h] at heq
  have hcnt : (addAll (newFixedDeque Nat 2) [10, 11]).Count = 2 := by decide
  rw [hcnt] at heq
  have hclamp : clamp (2 - 1) 0 (2 ^ 63 - 1) = 1 := by
    unfold clamp
    omega
  rw [hclamp] at heq
  injection heq with heq2
  norm_num at heq2

/-- C4 (amended): for every buffer holding fewer than `2^63` items (always
true of a real process), every `limit ≥ 0` and `offset ≥ 0` such that the
bounds check `offset + limit` does not overflow a 64-bit int, `Get`
returns a sequence of length exactly `clamp(Count() - offset, 0, limit)`,
equal to the oldest-to-newest window of the retained items starting at
position `offset`, and empty when `offset ≥ Count()`.  When
`offset < Count()` and `offset + limit ≥ 2^63` the comparison wraps and the
length property fails (the counterexample). -/
theorem get_length_clamp {T : Type} [Inhabited T] (fd : FixedDeque T) (limit offset : Int)
    (hl : 0 ≤ limit) (ho : 0 ≤ offset) (hlen : (fd.deque.length : Int) < 2 ^ 63)
    (hof : offset + limit < 2 ^ 63) :
    ∃ xs, fd.Get limit offset = some xs
      ∧ (xs.length : Int) = clamp (fd.Count - offset) 0 limit
      ∧ xs = (fd.deque.drop offset.toNat).take (clamp (fd.Count - offset) 0 limit).toNat
      ∧ (offset ≥ fd.Count → xs = []) := by
  refine ⟨_, get_spec fd limit offset hl ho hlen hof, ?_, rfl, ?_⟩
  · rw [List.length_take, List.length_drop]
    unfold clamp FixedDeque.Count
    push_cast
    omega
  · intro hge
    unfold FixedDeque.Count at hge
    have h0 : (clamp ((fd.deque.length : Int) - offset) 0 limit).toNat = 0 := by
      unfold clamp
      omega
    unfold FixedDeque.Count
    rw [h0, List.take_zero]

/-- Witness for C4's amended theorem: ten-capacity buffer with five items,
`Get(5, 1)` returns the four-item window starting at position 1. -/
theorem get_length_clamp_witness :
    ∃ xs, (addAll (newFixedDeque Nat 10) [0, 1, 2, 3, 4]).Get 5 1 = some xs
      ∧ (xs.length : Int)
        = clamp ((addAll (newFixedDeque Nat 10) [0, 1, 2, 3, 4]).Count - 1) 0 5
      ∧ xs = ((addAll (newFixedDeque Nat 10) [0, 1, 2, 3, 4]).deque.drop (1 : Int).toNat).take
          (clamp ((addAll (newFixedDeque Nat 10) [0, 1, 2, 3, 4]).Count - 1) 0 5).toNat
      ∧ ((1 : Int) ≥ (addAll (newFixedDeque Nat 10) [0, 1, 2, 3, 4]).Count → xs = []) :=
  get_length_clamp (addAll (newFixedDeque Nat 10) [0, 1, 2, 3, 4]) 5 1 (by norm_num)
    (by norm_num) (by decide) (by norm_num)

/-- C5: for every capacity `C ≥ 1` and every sequence of `N` adds into an
initially empty buffer, `Count() = min(N, C)`; consequently
`Count() ≤ Capacity()` for the buffer so reached (every state reachable by
adds), and `GetStats` reports exactly each signal kind's count and
configured capacity. -/
theorem count_min_capacity {T : Type} (c : Int) (hc : 1 ≤ c) (xs : List T) :
    (addAll (newFixedDeque T c) xs).Count = min ((xs.length : Int)) c
    ∧ (addAll (newFixedDeque T c) xs).Count ≤ (addAll (newFixedDeque T c) xs).Capacity
    ∧ (∀ (Tr Me Lo : Type) (b : Buffer Tr Me Lo),
        b.GetStats = { TracesCount := b.traces.Count, TracesCapacity := b.traces.Capacity
                       MetricsCount := b.metrics.Count, MetricsCapacity := b.metrics.Capacity
                       LogsCount := b.logs.Count, LogsCapacity := b.logs.Capacity }) := by
  have h1 := addAll_new_count c hc xs
  refine ⟨h1, ?_, fun Tr Me Lo b => rfl⟩
  have h2 : (addAll (newFixedDeque T c) xs).Capacity = c := by
    unfold FixedDeque.Capacity
    rw [addAll_capacity]
    rfl
  rw [h1, h2]
  omega

/-- Witness for C5: capacity 3, five adds, `Count = min(5, 3) = 3` and
`Count ≤ Capacity`. -/
theorem count_min_capacity_witness :
    (addAll (newFixedDeque Nat 3) [9, 9, 9, 9, 9]).Count
        = min ((([9, 9, 9, 9, 9] : List Nat).length : Int)) 3
    ∧ (addAll (newFixedDeque Nat 3) [9, 9, 9, 9, 9]).Count
        ≤ (addAll (newFixedDeque Nat 3) [9, 9, 9, 9, 9]).Capacity
    ∧ (∀ (Tr Me Lo : Type) (b : Buffer Tr Me Lo),
        b.GetStats = { TracesCount := b.traces.Count, TracesCapacity := b.traces.Capacity
                       MetricsCount := b.metrics.Count, MetricsCapacity := b.metrics.Capacity
                       LogsCount := b.logs.Count, LogsCapacity := b.logs.Capacity }) :=
  count_min_capacity 3 (by norm_num) [9, 9, 9, 9, 9]

/-- C7 counterexample: `Get(-1, 0)` on a buffer holding one item does not
clamp: it reaches `make([]T, -1)`, a Go runtime panic (`none` in the
model). -/
theorem get_negative_limit_counterexample :
    ((newFixedDeque Nat 5).Add 7).Get (-1) 0 = none := by decide

/-- C7 (amended): `Add` is total, and `Get` is total and clamps for every
`limit ≥ 0` and `offset ≥ 0` whose sum does not overflow 64-bit int; but a
negative `limit` is NOT clamped: whenever `offset < Count()` (with the sum
in 64-bit range), `Get` reaches `make([]T, limit)` with a negative length
and panics instead of returning a sequence. -/
theorem get_clamps_only_nonneg {T : Type} [Inhabited T] (fd : FixedDeque T)
    (limit offset : Int) (hlen : (fd.deque.length : Int) < 2 ^ 63) :
    (0 ≤ limit → 0 ≤ offset → offset + limit < 2 ^ 63 →
      ∃ xs, fd.Get limit offset = some xs
        ∧ (xs.length : Int) = clamp (fd.Count - offset) 0 limit)
    ∧ (limit < 0 → 0 ≤ offset → -(2 ^ 63) ≤ offset + limit → offset < fd.Count →
      fd.Get limit offset = none) := by
  constructor
  · intro hl ho hof
    refine ⟨_, get_spec fd limit offset hl ho hlen hof, ?_⟩
    rw [List.length_take, List.length_drop]
    unfold clamp FixedDeque.Count
    push_cast
    omega
  · intro hneg ho hbound hoc
    unfold FixedDeque.Count at hoc
    have hw : wrap64 (offset + limit) = offset + limit :=
      wrap64_eq_self (by omega) (by omega)
    unfold FixedDeque.Get
    have h1 : ¬ (offset ≥ (fd.deque.length : Int)) := by omega
    have h2 : ¬ (wrap64 (offset + limit) > (fd.deque.length : Int)) := by
      rw [hw]
      omega
    simp only [h1, if_false, h2, hneg, if_true]

/-- Witness for C7's amended theorem: a four-capacity buffer holding one
item; `Get(2, 0)` clamps to the single item, `Get(-2, 0)` panics. -/
theorem get_clamps_only_nonneg_witness :
    (∃ xs, ((newFixedDeque Nat 4).Add 9).Get 2 0 = some xs
      ∧ (xs.length : Int) = clamp (((newFixedDeque Nat 4).Add 9).Count - 0) 0 2)
    ∧ ((newFixedDeque Nat 4).Add 9).Get (-2) 0 = none := by
  have h2 := get_clamps_only_nonneg ((newFixedDeque Nat 4).Add 9) 2 0 (by decide)
  have hm2 := get_clamps_only_nonneg ((newFixedDeque Nat 4).Add 9) (-2) 0 (by decide)
  exact ⟨h2.1 (by norm_num) (by norm_num) (by norm_num),
    hm2.2 (by norm_num) (by norm_num) (by norm_num) (by decide)⟩

/-- C8: `Get` and `GetStats` are side-effect free: the state-passing
embeddings (which thread the mutable receiver through every primitive
`Len`/`At`/`Count`/`Capacity` read exactly as the Go code performs them)
return the input buffer state unchanged, and their results coincide with
the pure embeddings, for every buffer state, every `limit` and every
`offset` — so a result can be computed and discarded with no effect on
contents, count or capacity. -/
theorem get_side_effect_free {T : Type} [Inhabited T] (fd : FixedDeque T)
    (limit offset : Int) {Tr Me Lo : Type} (b : Buffer Tr Me Lo) :
    (fd.GetS limit offset).2 = fd
    ∧ (fd.GetS limit offset).1 = fd.Get limit offset
    ∧ b.GetStatsS.2 = b
    ∧ b.GetStatsS.1 = b.GetStats := by
  rw [getS_eq, getStatsS_eq]
  exact ⟨rfl, rfl, rfl, rfl⟩

theorem sum_lengths_const {V : Type} (ls : List (List V)) (K : Nat)
    (h : ∀ l ∈ ls, l.length = K) : (ls.map List.length).sum = ls.length * K := by
  induction ls with
  | nil => simp
  | cons a ls ih =>
    simp only [List.map_cons, List.sum_cons, List.length_cons]
    rw [h a (List.mem_cons_self a ls), ih (fun l hl => h l (List.mem_cons_of_mem a hl))]
    ring

/-- C9: with each lock-protected operation atomic (the per-instance
`sync.RWMutex` serializes writers), a concurrent execution of `T`
goroutines each performing `K` adds is an arbitrary interleaving of their
sequences; for EVERY such interleaving into a buffer of capacity
`≥ T*K`, the final `Count()` is exactly `T*K` (no lost updates), and every
`Get` (a reader, running on some such serialized state) returns a sequence
no longer than `Count()`. -/
theorem concurrent_adds_no_lost_updates {V : Type} [Inhabited V]
    (threads : List (List V)) (gor K : Nat) (ws : List V) (cap : Int)
    (hgor : threads.length = gor) (hK : ∀ l ∈ threads, l.length = K)
    (hinter : IsInterleaving threads ws)
    (hcap : ((gor * K : Nat) : Int) ≤ cap) (hc1 : 1 ≤ cap) (hcw : cap < 2 ^ 63) :
    (addAll (newFixedDeque V cap) ws).Count = ((gor * K : Nat) : Int)
    ∧ (∀ limit offset : Int, 0 ≤ limit → 0 ≤ offset → offset + limit < 2 ^ 63 →
        ∀ xs, (addAll (newFixedDeque V cap) ws).Get limit offset = some xs →
          ((xs.length : Int)) ≤ (addAll (newFixedDeque V cap) ws).Count) := by
  have hws : ws.length = gor * K := by
    rw [isInterleaving_length hinter, sum_lengths_const threads K hK, hgor]
  have hcnt : (addAll (newFixedDeque V cap) ws).Count = ((gor * K : Nat) : Int) := by
    rw [addAll_new_count cap hc1 ws, hws]
    omega
  refine ⟨hcnt, ?_⟩
  intro limit offset hl ho hof xs hget
  have hlen : ((addAll (newFixedDeque V cap) ws).deque.length : Int) < 2 ^ 63 := by
    have hh : ((addAll (newFixedDeque V cap) ws).deque.length : Int)
        = (addAll (newFixedDeque V cap) ws).Count := rfl
    rw [hh, hcnt]
    omega
  have hspec := get_spec _ limit offset hl ho hlen hof
  rw [hspec] at hget
  have hxs := Option.some.inj hget
  rw [← hxs, List.length_take, List.length_drop]
  unfold clamp FixedDeque.Count
  push_cast
  omega

/-- Witness for C9: two goroutines with one add each; the interleaving
`[3, 4]` of `[[3], [4]]` into a capacity-2 buffer ends with
`Count = 2 * 1`. -/
theorem concurrent_adds_no_lost_updates_witness :
    (addAll (newFixedDeque Nat 2) [3, 4]).Count = ((2 * 1 : Nat) : Int) := by
  have hi : IsInterleaving [[3], [4]] ([3, 4] : List Nat) := by
    refine IsInterleaving.step _ ⟨0, by norm_num⟩ 3 [] _ rfl ?_
    refine IsInterleaving.step _ ⟨1, by norm_num⟩ 4 [] _ rfl ?_
    exact IsInterleaving.empty _ (by decide)
  exact (concurrent_adds_no_lost_updates [[3], [4]] 2 1 [3, 4] 2 rfl (by decide) hi
    (by norm_num) (by norm_num) (by norm_num)).1

/-- C10 counterexample: with capacity 0, the first `Add` on the empty
buffer takes the eviction branch, but `RemoveFront` on the empty deque
removes nothing (comma-ok API of the deque package), so — contrary to the
claim — the item IS stored and `Add` is total: the deque becomes `[42]` and
`Count` becomes 1 (exceeding the capacity). -/
theorem add_zero_capacity_counterexample :
    ((newFixedDeque Nat 0).Add 42).deque = [42]
    ∧ ((newFixedDeque Nat 0).Add 42).Count = 1 :=
  ⟨by decide, by decide⟩

/-- C10 (amended): the constructor performs no capacity validation
(`newFixedDeque c` builds an empty buffer with capacity `c` for any `c`);
for capacity `c ≤ 0` every `Add` takes the eviction branch
(`Len() ≥ capacity` already holds at length 0) and calls `RemoveFront` on
the deque — on the empty deque this removes nothing, so the item is still
stored: `Add` stays total, and after the first `Add` the buffer holds one
item, violating `Count() ≤ capacity`. -/
theorem add_nonpositive_capacity {T : Type} (c : Int) (hc : c ≤ 0) (x : T)
    (fd : FixedDeque T) (hcap : fd.capacity = c) :
    (newFixedDeque T c).capacity = c
    ∧ (newFixedDeque T c).deque = []
    ∧ (fd.Add x).deque = removeFront fd.deque ++ [x]
    ∧ ((newFixedDeque T c).Add x).deque = [x]
    ∧ ((newFixedDeque T c).Add x).Count = 1
    ∧ ((newFixedDeque T c).Add x).Capacity < ((newFixedDeque T c).Add x).Count := by
  have hge : (fd.deque.length : Int) ≥ fd.capacity := by
    rw [hcap]
    have h0 : (0 : Int) ≤ (fd.deque.length : Int) := Int.ofNat_nonneg _
    omega
  have hge0 : ((newFixedDeque T c).deque.length : Int) ≥ (newFixedDeque T c).capacity := by
    simp only [newFixedDeque, List.length_nil]
    omega
  have hdq : ((newFixedDeque T c).Add x).deque = [x] := by
    rw [FixedDeque.Add_deque_full (newFixedDeque T c) x hge0]
    rfl
  have hcount : ((newFixedDeque T c).Add x).Count = 1 := by
    unfold FixedDeque.Count
    rw [hdq]
    rfl
  refine ⟨rfl, rfl, FixedDeque.Add_deque_full fd x hge, hdq, hcount, ?_⟩
  have hcap2 : ((newFixedDeque T c).Add x).Capacity = c := rfl
  rw [hcap2, hcount]
  omega

/-- Witness for C10's amended theorem at capacity 0. -/
theorem add_nonpositive_capacity_witness :
    (newFixedDeque Nat 0).capacity = 0
    ∧ (newFixedDeque Nat 0).deque = []
    ∧ ((newFixedDeque Nat 0).Add 7).deque = removeFront (newFixedDeque Nat 0).deque ++ [7]
    ∧ ((newFixedDeque Nat 0).Add 7).deque = [7]
    ∧ ((newFixedDeque Nat 0).Add 7).Count = 1
    ∧ ((newFixedDeque Nat 0).Add 7).Capacity < ((newFixedDeque Nat 0).Add 7).Count :=
  add_nonpositive_capacity 0 (by norm_num) 7 (newFixedDeque Nat 0) rfl
